import Mathlib

/-!
Verification of the debugger pause-position index of
`Source/JavaScriptCore/debugger/DebuggerParseData.cpp` (class
`DebuggerPausePositions`).

The record list `m_positions` is embedded as a Lean `List`; iterators become
natural-number indices (or, for the forward-only scan loops, list suffixes
obtained with `List.drop`).  `std::sort` and `std::lower_bound` are standard
library routines, modelled by their contracts: `std::sort` as a sort
satisfying its postcondition (realised here by the stable `List.mergeSort`
with the same comparator) and `std::lower_bound` by the textbook half-interval
search loop it implements.  The C++ roll-forward loop
`while (it->type == Enter) ++it;` dereferences `end()` on a malformed index;
this out-of-bounds access is modelled as the `none` result of `rollForward`.
-/

/-- Pause-position record type.  The enum is not part of the provided source
(it lives in `DebuggerParseData.h`); modelled from the spec: `Invalid` is the
search sentinel and must sort before all real types, `Enter` is numerically
smallest among the real types, and `Normal` denotes an ordinary statement
boundary. -/
inductive DebuggerPausePositionType where
  | Invalid
  | Enter
  | Leave
  | Normal
deriving DecidableEq, Repr

/-- Numeric value of the enum constant, used by the `sort()` comparator
(`a.type < b.type`). -/
def DebuggerPausePositionType.ordinal : DebuggerPausePositionType → Nat
  | .Invalid => 0
  | .Enter => 1
  | .Leave => 2
  | .Normal => 3

/-- Source text position.  `JSTextPosition` is not part of the provided
source (it lives in `ParserTokens.h`); modelled from the spec: an ordered
pair (line, column) plus a byte/char offset into the source. -/
structure JSTextPosition where
  line : Int
  column : Int
  offset : Int
deriving DecidableEq, Repr

/-- A pause-position record: a type tag plus a text position. -/
structure DebuggerPausePosition where
  type : DebuggerPausePositionType
  position : JSTextPosition
deriving DecidableEq, Repr

/-- Default record used with `List.getD`; all accesses guarded by claims are
proved in bounds, so the default is never observed there. -/
def defaultPause : DebuggerPausePosition :=
  { type := DebuggerPausePositionType.Invalid, position := { line := 0, column := 0, offset := 0 } }

/-- The line/column comparator shared by `firstPositionAfter` and the final
sort of `forEachBreakpointLocation`:
`if (a.line == b.line) return a.column() < b.column(); return a.line < b.line;`. -/
def posLess (a b : JSTextPosition) : Bool :=
  if a.line = b.line then decide (a.column < b.column) else decide (a.line < b.line)

/-- Non-strict companion of `posLess`: `a` is not after `b` in line/column
order. -/
def posLE (a b : JSTextPosition) : Bool := !posLess b a

/-- The comparator of `DebuggerPausePositions::sort`:
`if (a.position.offset == b.position.offset) return a.type < b.type;
return a.position.offset < b.position.offset;`. -/
def pauseLess (a b : DebuggerPausePosition) : Bool :=
  if a.position.offset = b.position.offset then
    decide (a.type.ordinal < b.type.ordinal)
  else decide (a.position.offset < b.position.offset)

/-- Non-strict companion of `pauseLess`, the order established by `sort()`. -/
def pauseLE (a b : DebuggerPausePosition) : Bool := !pauseLess b a

/-- `DebuggerPausePositions::sort`: `std::sort(m_positions.begin(), end(), cmp)`
with `cmp = pauseLess`.  `std::sort` is unstable and only guarantees its
postcondition (a permutation ordered by the comparator, captured by
`SortResult` below); this executable model realises that contract with
`List.mergeSort`, and the claims about `sort()` are stated against the
contract, never against the stability of this particular realisation. -/
def DebuggerPausePositions.sort (ps : List DebuggerPausePosition) : List DebuggerPausePosition :=
  ps.mergeSort pauseLE

/-- The `std::sort` postcondition: `qs` is a possible result of sorting `ps`
with the comparator of `DebuggerPausePositions::sort` — a permutation of the
input that is ordered by the comparator.  Quantifying over all such `qs`
captures every conforming (possibly unstable) `std::sort` implementation. -/
def SortResult (ps qs : List DebuggerPausePosition) : Prop :=
  qs.Perm ps ∧ List.Pairwise (fun a b => pauseLE a b = true) qs

/-- Two distinct records that are equivalent under the `sort()` comparator:
equal offsets and equal types, but different lines.  The sequence is already
ordered by the comparator. -/
def equalKeyIndex : List DebuggerPausePosition :=
  [ { type := DebuggerPausePositionType.Normal,
      position := { line := 1, column := 0, offset := 0 } },
    { type := DebuggerPausePositionType.Normal,
      position := { line := 2, column := 0, offset := 0 } } ]

/-- The same two records swapped: an equally conforming `std::sort` result. -/
def equalKeyIndexSwapped : List DebuggerPausePosition :=
  [ { type := DebuggerPausePositionType.Normal,
      position := { line := 2, column := 0, offset := 0 } },
    { type := DebuggerPausePositionType.Normal,
      position := { line := 1, column := 0, offset := 0 } } ]

/-- The records of `exampleIndex 2 0 1` arranged in offset order: a
conforming `std::sort` result for that input. -/
def exampleIndexSorted : List DebuggerPausePosition :=
  [ { type := DebuggerPausePositionType.Normal,
      position := { line := 4, column := 5, offset := 0 } },
    { type := DebuggerPausePositionType.Leave,
      position := { line := 5, column := 1, offset := 1 } },
    { type := DebuggerPausePositionType.Enter,
      position := { line := 3, column := 10, offset := 2 } } ]

/-- The half-interval search loop of `std::lower_bound` over indices
`[first, first + len)`, comparing records to the query position `q` with the
line/column comparator.  `fuel` bounds the recursion depth; it is initialised
to `len` and never runs out first, since `len` shrinks by at least one per
step. -/
def lowerBoundAux (ps : List DebuggerPausePosition) (q : JSTextPosition) :
    Nat → Nat → Nat → Nat
  | 0, first, _ => first
  | fuel + 1, first, len =>
    if len = 0 then first
    else if posLess (ps.getD (first + len / 2) defaultPause).position q then
      lowerBoundAux ps q fuel (first + len / 2 + 1) (len - len / 2 - 1)
    else
      lowerBoundAux ps q fuel first (len / 2)

/-- `DebuggerPausePositions::firstPositionAfter`: lower bound of the synthetic
record `{ Invalid, JSTextPosition(line, column, 0) }` under the line/column
comparator, as an index into the record list (`m_positions.size()` plays the
role of the end iterator). -/
def firstPositionAfter (ps : List DebuggerPausePosition) (line column : Int) : Nat :=
  lowerBoundAux ps { line := line, column := column, offset := 0 } ps.length 0 ps.length

/-- The exact-match roll-forward loop of `breakpointLocationForLineColumn`:
`while (it->type == Enter) ++it; return it->position;` on the suffix starting
at `it`.  Running off the end of the sequence is undefined behaviour in the
C++ (an `end()` dereference); it is modelled as `none`. -/
def rollForward : List DebuggerPausePosition → Option DebuggerPausePosition
  | [] => none
  | p :: rest =>
    if p.type = DebuggerPausePositionType.Enter then rollForward rest else some p

/-- The scope-skip loop of `breakpointLocationForLineColumn` (the `for` loop
over `slidePosition` with the `entryStackSize` counter), on the suffix
starting at the record after the first slide position. -/
def slideLoop (entryStackSize : Nat) : List DebuggerPausePosition → Option JSTextPosition
  | [] => none
  | p :: rest =>
    if entryStackSize ≠ 0 then
      if p.type = DebuggerPausePositionType.Enter then slideLoop (entryStackSize + 1) rest
      else if p.type = DebuggerPausePositionType.Leave then slideLoop (entryStackSize - 1) rest
      else slideLoop entryStackSize rest
    else if p.type = DebuggerPausePositionType.Enter then slideLoop 1 rest
    else some p.position

/-- The iterator overload
`breakpointLocationForLineColumn(line, column, Positions::iterator it)`;
the suffix argument is the tail of the record list starting at `it`. -/
def breakpointLocationFromIterator (line column : Int) :
    List DebuggerPausePosition → Option JSTextPosition
  | [] => none
  | p :: rest =>
    if line = p.position.line ∧ column = p.position.column then
      match rollForward (p :: rest) with
      | some q => some q.position
      | none => none
    else if p.type ≠ DebuggerPausePositionType.Enter then some p.position
    else
      slideLoop (if p.position.line = line then 0 else 1) rest

/-- `DebuggerPausePositions::breakpointLocationForLineColumn(line, column)`:
resolve starting from `firstPositionAfter(line, column)`. -/
def breakpointLocationForLineColumn (ps : List DebuggerPausePosition) (line column : Int) :
    Option JSTextPosition :=
  breakpointLocationFromIterator line column (ps.drop (firstPositionAfter ps line column))

/-- The local `isAfterEnd` lambda of `forEachBreakpointLocation`:
`(line == endLine && column >= endColumn) || line > endLine`. -/
def isAfterEnd (endLine endColumn line column : Int) : Bool :=
  decide ((line = endLine ∧ column ≥ endColumn) ∨ line > endLine)

/-- `Vector::appendIfNotContains`, a WTF library routine modelled by its
contract: append the element unless an equal element is already present. -/
def appendIfNotContains (l : List JSTextPosition) (p : JSTextPosition) : List JSTextPosition :=
  if p ∈ l then l else l ++ [p]

/-- The raw scan loop of `forEachBreakpointLocation`, accumulating
`uniquePositions`: walk the record suffix, stop at the first record at or past
the end bound, resolve each record from its own iterator, and collect
resolved positions that are still inside the bound. -/
def forEachLoop (endLine endColumn : Int) :
    List DebuggerPausePosition → List JSTextPosition → List JSTextPosition
  | [], acc => acc
  | p :: rest, acc =>
    if isAfterEnd endLine endColumn p.position.line p.position.column then acc
    else
      forEachLoop endLine endColumn rest
        (match breakpointLocationFromIterator p.position.line p.position.column (p :: rest) with
         | some r => if isAfterEnd endLine endColumn r.line r.column then acc
                     else appendIfNotContains acc r
         | none => acc)

/-- `DebuggerPausePositions::forEachBreakpointLocation`: the list of positions
passed to the callback, in order — the collected `uniquePositions` sorted with
`std::sort` under the line/column comparator (modelled by contract via
`List.mergeSort`). -/
def forEachBreakpointLocation (ps : List DebuggerPausePosition)
    (startLine startColumn endLine endColumn : Int) : List JSTextPosition :=
  (forEachLoop endLine endColumn (ps.drop (firstPositionAfter ps startLine startColumn))
    []).mergeSort posLE

/-- The record list is non-decreasing in line/column order — the precondition
of the binary search (the spec's "sorted consistently with line/column
order"). -/
def PosSorted (ps : List DebuggerPausePosition) : Prop :=
  List.Pairwise (fun a b => posLess b.position a.position = false) ps

/-- Well-formed index: every `Enter` record has a `Leave` record later in the
sequence (the guarantee the roll-forward loop's missing bounds check relies
on). -/
def WellFormed (ps : List DebuggerPausePosition) : Prop :=
  ∀ i ∈ List.range ps.length,
    (ps.getD i defaultPause).type = DebuggerPausePositionType.Enter →
      ∃ j ∈ List.range ps.length, i < j ∧
        (ps.getD j defaultPause).type = DebuggerPausePositionType.Leave

instance (ps : List DebuggerPausePosition) : Decidable (PosSorted ps) := by
  unfold PosSorted; infer_instance

instance (ps : List DebuggerPausePosition) : Decidable (WellFormed ps) := by
  unfold WellFormed; infer_instance

/-- Propositional reading of the line/column comparator. -/
theorem posLess_iff (a b : JSTextPosition) :
    posLess a b = true ↔ (a.line < b.line ∨ (a.line = b.line ∧ a.column < b.column)) := by
  unfold posLess
  split <;> rename_i h <;> simp <;> omega

/-- Propositional reading of the negation of the line/column comparator. -/
theorem posLess_eq_false_iff (a b : JSTextPosition) :
    posLess a b = false ↔ ¬ (a.line < b.line ∨ (a.line = b.line ∧ a.column < b.column)) := by
  rw [← posLess_iff]
  simp

/-- In the line/column order, `a ≤ c` and `c < q` give `a < q`. -/
theorem posLess_of_le_of_less (a c q : JSTextPosition)
    (h1 : posLess c a = false) (h2 : posLess c q = true) : posLess a q = true := by
  rw [posLess_eq_false_iff] at h1
  rw [posLess_iff] at h2 ⊢
  omega

/-- In a line/column-sorted list, whenever a record is before the query
position, so is every earlier record: the list is partitioned for the
binary search. -/
theorem posSorted_mono (ps : List DebuggerPausePosition) (hs : PosSorted ps)
    (q : JSTextPosition) :
    ∀ j k, j ≤ k → k < ps.length →
      posLess (ps.getD k defaultPause).position q = true →
      posLess (ps.getD j defaultPause).position q = true := by
  intro j k hjk hk hless
  rcases Nat.eq_or_lt_of_le hjk with rfl | hlt
  · exact hless
  · have hj : j < ps.length := Nat.lt_trans hlt hk
    have hpair := (List.pairwise_iff_getElem.mp hs) j k hj hk hlt
    rw [List.getD_eq_getElem ps defaultPause hk] at hless
    rw [List.getD_eq_getElem ps defaultPause hj]
    exact posLess_of_le_of_less _ _ _ hpair hless

/-- Correctness of the half-interval search loop: on a partitioned subrange
it returns the partition point — every earlier index satisfies the
comparator against the query, and no index from the result on does. -/
theorem lowerBoundAux_spec (ps : List DebuggerPausePosition) (q : JSTextPosition) :
    ∀ fuel first len, len ≤ fuel → first + len ≤ ps.length →
    (∀ j k, first ≤ j → j ≤ k → k < first + len →
        posLess (ps.getD k defaultPause).position q = true →
        posLess (ps.getD j defaultPause).position q = true) →
    first ≤ lowerBoundAux ps q fuel first len ∧
    lowerBoundAux ps q fuel first len ≤ first + len ∧
    (∀ j, first ≤ j → j < lowerBoundAux ps q fuel first len →
        posLess (ps.getD j defaultPause).position q = true) ∧
    (∀ j, lowerBoundAux ps q fuel first len ≤ j → j < first + len →
        posLess (ps.getD j defaultPause).position q = false) := by
  intro fuel
  induction fuel with
  | zero =>
    intro first len hlen _ _
    have h0 : len = 0 := Nat.le_zero.mp hlen
    subst h0
    have heq : lowerBoundAux ps q 0 first 0 = first := rfl
    rw [heq]
    exact ⟨Nat.le_refl _, by omega, fun j hj hjr => by omega, fun j hjr hjb => by omega⟩
  | succ fuel ih =>
    intro first len hlen hbound hmono
    by_cases h0 : len = 0
    · subst h0
      have heq : lowerBoundAux ps q (fuel + 1) first 0 = first := by
        simp [lowerBoundAux]
      rw [heq]
      exact ⟨Nat.le_refl _, by omega, fun j hj hjr => by omega, fun j hjr hjb => by omega⟩
    · have hlen1 : 1 ≤ len := Nat.one_le_iff_ne_zero.mpr h0
      have hhalf : len / 2 < len := Nat.div_lt_self (by omega) (by omega)
      cases hcmp : posLess (ps.getD (first + len / 2) defaultPause).position q with
      | true =>
        have heq : lowerBoundAux ps q (fuel + 1) first len =
            lowerBoundAux ps q fuel (first + len / 2 + 1) (len - len / 2 - 1) := by
          simp only [lowerBoundAux, if_neg h0, hcmp, if_pos]
        rw [heq]
        obtain ⟨ih1, ih2, ih3, ih4⟩ :=
          ih (first + len / 2 + 1) (len - len / 2 - 1) (by omega) (by omega)
            (fun j k hj hk hkb => hmono j k (by omega) hk (by omega))
        refine ⟨by omega, by omega, ?_, ?_⟩
        · intro j hj hjr
          rcases Nat.lt_or_ge j (first + len / 2 + 1) with hcase | hcase
          · exact hmono j (first + len / 2) hj (by omega) (by omega) hcmp
          · exact ih3 j hcase hjr
        · intro j hjr hjb
          exact ih4 j hjr (by omega)
      | false =>
        have heq : lowerBoundAux ps q (fuel + 1) first len =
            lowerBoundAux ps q fuel first (len / 2) := by
          simp only [lowerBoundAux, if_neg h0, hcmp]
          simp
        rw [heq]
        obtain ⟨ih1, ih2, ih3, ih4⟩ :=
          ih first (len / 2) (by omega) (by omega)
            (fun j k hj hk hkb => hmono j k hj hk (by omega))
        refine ⟨ih1, by omega, ih3, ?_⟩
        · intro j hjr hjb
          rcases Nat.lt_or_ge j (first + len / 2) with hcase | hcase
          · exact ih4 j hjr hcase
          · cases hj : posLess (ps.getD j defaultPause).position q with
            | false => rfl
            | true =>
              have := hmono (first + len / 2) j (by omega) hcase hjb hj
              rw [hcmp] at this
              exact absurd this (by simp)

/-- Specification of `firstPositionAfter` on a sorted index: all records
before the returned index are strictly before the query in line/column order,
and none from the returned index on are. -/
theorem firstPositionAfter_spec (ps : List DebuggerPausePosition) (hs : PosSorted ps)
    (L C : Int) :
    firstPositionAfter ps L C ≤ ps.length ∧
    (∀ j, j < firstPositionAfter ps L C →
        posLess (ps.getD j defaultPause).position { line := L, column := C, offset := 0 } = true) ∧
    (∀ j, firstPositionAfter ps L C ≤ j → j < ps.length →
        posLess (ps.getD j defaultPause).position { line := L, column := C, offset := 0 } = false) := by
  obtain ⟨h1, h2, h3, h4⟩ :=
    lowerBoundAux_spec ps { line := L, column := C, offset := 0 } ps.length 0 ps.length
      (Nat.le_refl _) (by omega)
      (fun j k hj hk hkb => posSorted_mono ps hs _ j k hk (by omega))
  exact ⟨by simpa [firstPositionAfter] using h2,
         fun j hj => h3 j (Nat.zero_le _) hj,
         fun j hj hjb => h4 j hj (by omega)⟩

/-- The roll-forward loop returns a member of the suffix, and never an
`Enter` record. -/
theorem rollForward_some (s : List DebuggerPausePosition) (r : DebuggerPausePosition)
    (h : rollForward s = some r) : r ∈ s ∧ r.type ≠ DebuggerPausePositionType.Enter := by
  induction s with
  | nil => simp [rollForward] at h
  | cons p rest ih =>
    rw [rollForward] at h
    split at h
    · obtain ⟨hmem, hne⟩ := ih h
      exact ⟨List.mem_cons_of_mem _ hmem, hne⟩
    · rename_i hne
      cases h
      exact ⟨List.mem_cons_self _ _, hne⟩

/-- If some record at index `m` of the suffix is not an `Enter`, the
roll-forward loop stops at the first such index, which is at most `m`. -/
theorem rollForward_spec (s : List DebuggerPausePosition) :
    ∀ m, m < s.length → (s.getD m defaultPause).type ≠ DebuggerPausePositionType.Enter →
    ∃ j, j ≤ m ∧ j < s.length ∧ rollForward s = some (s.getD j defaultPause) ∧
      (s.getD j defaultPause).type ≠ DebuggerPausePositionType.Enter := by
  induction s with
  | nil => intro m hm; simp at hm
  | cons p rest ih =>
    intro m hm hne
    by_cases hp : p.type = DebuggerPausePositionType.Enter
    · have hm0 : m ≠ 0 := by
        intro h0
        subst h0
        exact hne (by simpa using hp)
      obtain ⟨m', rfl⟩ : ∃ m', m = m' + 1 := ⟨m - 1, by omega⟩
      have hm' : m' < rest.length := by simpa using hm
      obtain ⟨j, hj1, hj2, hj3, hj4⟩ := ih m' hm' (by simpa using hne)
      refine ⟨j + 1, by omega, by simpa using hj2, ?_, by simpa using hj4⟩
      rw [rollForward, if_pos hp]
      simpa using hj3
    · exact ⟨0, Nat.zero_le _, by simp, by rw [rollForward, if_neg hp]; simp, by simpa using hp⟩

/-- The scope-skip loop only ever returns the position of a record of the
suffix that is not an `Enter`. -/
theorem slideLoop_some (s : List DebuggerPausePosition) :
    ∀ n r, slideLoop n s = some r →
    ∃ d ∈ s, d.position = r ∧ d.type ≠ DebuggerPausePositionType.Enter := by
  induction s with
  | nil => intro n r h; simp [slideLoop] at h
  | cons p rest ih =>
    intro n r h
    rw [slideLoop] at h
    split_ifs at h with h1 h2 h3 h4
    · obtain ⟨d, hd, hdr, hdne⟩ := ih _ _ h
      exact ⟨d, List.mem_cons_of_mem _ hd, hdr, hdne⟩
    · obtain ⟨d, hd, hdr, hdne⟩ := ih _ _ h
      exact ⟨d, List.mem_cons_of_mem _ hd, hdr, hdne⟩
    · obtain ⟨d, hd, hdr, hdne⟩ := ih _ _ h
      exact ⟨d, List.mem_cons_of_mem _ hd, hdr, hdne⟩
    · obtain ⟨d, hd, hdr, hdne⟩ := ih _ _ h
      exact ⟨d, List.mem_cons_of_mem _ hd, hdr, hdne⟩
    · cases h
      exact ⟨p, List.mem_cons_self _ _, rfl, h4⟩

/-- Resolution from an iterator only ever returns the position of a record of
the suffix that is not an `Enter`. -/
theorem breakpointLocationFromIterator_some (L C : Int) (s : List DebuggerPausePosition)
    (r : JSTextPosition) (h : breakpointLocationFromIterator L C s = some r) :
    ∃ d ∈ s, d.position = r ∧ d.type ≠ DebuggerPausePositionType.Enter := by
  cases s with
  | nil => simp [breakpointLocationFromIterator] at h
  | cons p rest =>
    rw [breakpointLocationFromIterator] at h
    split_ifs at h with h1 h2 h3
    · cases hr : rollForward (p :: rest) with
      | none => rw [hr] at h; cases h
      | some d =>
        rw [hr] at h
        cases h
        obtain ⟨hmem, hne⟩ := rollForward_some _ _ hr
        exact ⟨d, hmem, rfl, hne⟩
    · cases h
      exact ⟨p, List.mem_cons_self _ _, rfl, h2⟩
    · obtain ⟨d, hd, hdr, hdne⟩ := slideLoop_some rest _ _ h
      exact ⟨d, List.mem_cons_of_mem _ hd, hdr, hdne⟩
    · obtain ⟨d, hd, hdr, hdne⟩ := slideLoop_some rest _ _ h
      exact ⟨d, List.mem_cons_of_mem _ hd, hdr, hdne⟩

/-- Elements collected by the raw scan loop either were already in the
accumulator or are resolved positions of non-`Enter` records of the suffix. -/
theorem forEachLoop_mem (eL eC : Int) (s : List DebuggerPausePosition) :
    ∀ acc, ∀ x ∈ forEachLoop eL eC s acc,
      x ∈ acc ∨ ∃ d ∈ s, d.position = x ∧ d.type ≠ DebuggerPausePositionType.Enter := by
  induction s with
  | nil => intro acc x hx; left; simpa [forEachLoop] using hx
  | cons p rest ih =>
    intro acc x hx
    rw [forEachLoop] at hx
    split_ifs at hx with hend
    · left; exact hx
    · rcases ih _ x hx with hacc | ⟨d, hd, hdx, hdne⟩
      · revert hacc
        cases hres : breakpointLocationFromIterator p.position.line p.position.column (p :: rest) with
        | none => simp only [hres]; exact fun hacc => Or.inl hacc
        | some r =>
          simp only [hres]
          split_ifs with hrend
          · exact fun hacc => Or.inl hacc
          · intro hacc
            unfold appendIfNotContains at hacc
            split_ifs at hacc with hmem
            · exact Or.inl hacc
            · rcases List.mem_append.mp hacc with hacc | hacc
              · exact Or.inl hacc
              · obtain ⟨d, hd, hdx, hdne⟩ :=
                  breakpointLocationFromIterator_some _ _ _ _ hres
                right
                have hxr : x = r := by simpa using hacc
                exact ⟨d, hd, by rw [hdx, hxr], hdne⟩
      · exact Or.inr ⟨d, List.mem_cons_of_mem _ hd, hdx, hdne⟩

/-- Appending only if absent preserves distinctness of the accumulator. -/
theorem appendIfNotContains_nodup (l : List JSTextPosition) (p : JSTextPosition)
    (h : l.Nodup) : (appendIfNotContains l p).Nodup := by
  unfold appendIfNotContains
  split_ifs with hmem
  · exact h
  · simpa [List.nodup_append, hmem] using h

/-- The raw scan loop preserves distinctness of the accumulator. -/
theorem forEachLoop_nodup (eL eC : Int) (s : List DebuggerPausePosition) :
    ∀ acc, acc.Nodup → (forEachLoop eL eC s acc).Nodup := by
  induction s with
  | nil => intro acc hacc; simpa [forEachLoop] using hacc
  | cons p rest ih =>
    intro acc hacc
    rw [forEachLoop]
    split_ifs with hend
    · exact hacc
    · apply ih
      cases hres : breakpointLocationFromIterator p.position.line p.position.column (p :: rest) with
      | none => exact hacc
      | some r =>
        show (if isAfterEnd eL eC r.line r.column = true then acc
              else appendIfNotContains acc r).Nodup
        split_ifs with hrend
        · exact hacc
        · exact appendIfNotContains_nodup _ _ hacc

/-- The line/column order is transitive. -/
theorem posLE_trans (a b c : JSTextPosition) (h1 : posLE a b) (h2 : posLE b c) : posLE a c := by
  simp only [posLE, Bool.not_eq_true', posLess_eq_false_iff] at h1 h2 ⊢
  omega

/-- The line/column order is total. -/
theorem posLE_total (a b : JSTextPosition) : posLE a b || posLE b a := by
  simp only [posLE, Bool.or_eq_true, Bool.not_eq_true', posLess_eq_false_iff]
  omega

/-- Propositional reading of the `sort()` comparator. -/
theorem pauseLess_iff (a b : DebuggerPausePosition) :
    pauseLess a b = true ↔ (a.position.offset < b.position.offset ∨
      (a.position.offset = b.position.offset ∧ a.type.ordinal < b.type.ordinal)) := by
  unfold pauseLess
  split <;> rename_i h <;> simp <;> omega

/-- The offset/type order established by `sort()` is transitive. -/
theorem pauseLE_trans (a b c : DebuggerPausePosition) (h1 : pauseLE a b) (h2 : pauseLE b c) :
    pauseLE a c := by
  simp only [pauseLE, Bool.not_eq_true'] at h1 h2 ⊢
  rw [← Bool.not_eq_true, pauseLess_iff] at h1 h2 ⊢
  omega

/-- The offset/type order established by `sort()` is total. -/
theorem pauseLE_total (a b : DebuggerPausePosition) : pauseLE a b || pauseLE b a := by
  simp only [pauseLE, Bool.or_eq_true, Bool.not_eq_true']
  rw [← Bool.not_eq_true, pauseLess_iff, ← Bool.not_eq_true, pauseLess_iff]
  omega

/-- A record at or after the query in line/column order is at or past the
end bound of a range query ending exactly at the query position. -/
theorem isAfterEnd_of_not_less (L C : Int) (p : JSTextPosition)
    (h : posLess p { line := L, column := C, offset := 0 } = false) :
    isAfterEnd L C p.line p.column = true := by
  rw [posLess_eq_false_iff] at h
  simp only [isAfterEnd, decide_eq_true_eq]
  dsimp only at h
  omega

/-- Sandwich: between the lower bound and a record whose position matches the
query's line and column exactly, every record position matches as well. -/
theorem pos_eq_of_between (ps : List DebuggerPausePosition) (hs : PosSorted ps) (L C : Int)
    (t k : Nat) (htk : t ≤ k) (hk : k < ps.length)
    (hkL : (ps.getD k defaultPause).position.line = L)
    (hkC : (ps.getD k defaultPause).position.column = C)
    (ht : posLess (ps.getD t defaultPause).position { line := L, column := C, offset := 0 } = false) :
    (ps.getD t defaultPause).position.line = L ∧
    (ps.getD t defaultPause).position.column = C := by
  have htlen : t < ps.length := by omega
  rcases Nat.eq_or_lt_of_le htk with rfl | hlt
  · exact ⟨hkL, hkC⟩
  · have hpair := (List.pairwise_iff_getElem.mp hs) t k htlen hk hlt
    rw [List.getD_eq_getElem ps defaultPause htlen] at ht ⊢
    rw [List.getD_eq_getElem ps defaultPause hk] at hkL hkC
    rw [posLess_eq_false_iff] at ht hpair
    dsimp only at ht
    omega

/-- Indexing into a dropped suffix is indexing into the original list. -/
theorem getD_drop (ps : List DebuggerPausePosition) (i m : Nat)
    (h : m < (ps.drop i).length) :
    (ps.drop i).getD m defaultPause = ps.getD (i + m) defaultPause := by
  have h2 : i + m < ps.length := by
    rw [List.length_drop] at h
    omega
  rw [List.getD_eq_getElem _ _ h, List.getD_eq_getElem ps defaultPause h2]
  simp

/-- Propositional reading of the non-strict offset/type order. -/
theorem pauseLE_iff (a b : DebuggerPausePosition) :
    pauseLE a b = true ↔ (a.position.offset < b.position.offset ∨
      (a.position.offset = b.position.offset ∧ a.type.ordinal ≤ b.type.ordinal)) := by
  simp only [pauseLE, Bool.not_eq_true']
  rw [← Bool.not_eq_true, pauseLess_iff]
  omega

/-- The offset/type order is reflexive. -/
theorem pauseLE_refl (a : DebuggerPausePosition) : pauseLE a a = true := by
  rw [pauseLE_iff]
  omega

/-- The enum ordinal determines the enum constant. -/
theorem typeOrdinal_injective (a b : DebuggerPausePositionType)
    (h : a.ordinal = b.ordinal) : a = b := by
  cases a <;> cases b <;> simp_all [DebuggerPausePositionType.ordinal]

/-- Records below each other in the offset/type order share their sort key:
equal offsets and equal types. -/
theorem pauseLE_antisymm_keys (a b : DebuggerPausePosition)
    (h1 : pauseLE a b = true) (h2 : pauseLE b a = true) :
    a.position.offset = b.position.offset ∧ a.type = b.type := by
  rw [pauseLE_iff] at h1 h2
  refine ⟨by omega, typeOrdinal_injective _ _ (by omega)⟩

/-- A comparator-sorted permutation of a comparator-sorted list is the list
itself, provided records sharing a sort key (offset and type) are equal.
This holds for every conforming sort result, stable or not. -/
theorem sorted_perm_eq (l₁ : List DebuggerPausePosition) :
    ∀ l₂, l₁.Perm l₂ →
      List.Pairwise (fun a b => pauseLE a b = true) l₁ →
      List.Pairwise (fun a b => pauseLE a b = true) l₂ →
      (∀ a ∈ l₁, ∀ b ∈ l₁, a.position.offset = b.position.offset →
        a.type = b.type → a = b) →
      l₁ = l₂ := by
  induction l₁ with
  | nil =>
    intro l₂ hp _ _ _
    exact hp.nil_eq
  | cons a t ih =>
    intro l₂ hp hs₁ hs₂ hanti
    cases l₂ with
    | nil => exact absurd hp.eq_nil (by simp)
    | cons b u =>
      have ha₂ : a ∈ b :: u := hp.subset (List.mem_cons_self a t)
      have hb₁ : b ∈ a :: t := hp.symm.subset (List.mem_cons_self b u)
      have hpc₁ := List.pairwise_cons.mp hs₁
      have hpc₂ := List.pairwise_cons.mp hs₂
      have hab : pauseLE a b = true := by
        rcases List.mem_cons.mp hb₁ with heq | hmem
        · rw [heq]
          exact pauseLE_refl a
        · exact hpc₁.1 b hmem
      have hba : pauseLE b a = true := by
        rcases List.mem_cons.mp ha₂ with heq | hmem
        · rw [heq]
          exact pauseLE_refl b
        · exact hpc₂.1 a hmem
      obtain ⟨hoff, htype⟩ := pauseLE_antisymm_keys a b hab hba
      have heq : a = b := hanti a (List.mem_cons_self a t) b hb₁ hoff htype
      subst heq
      have ht : t = u := ih u hp.cons_inv hpc₁.2 hpc₂.2
        (fun x hx y hy => hanti x (List.mem_cons_of_mem _ hx) y (List.mem_cons_of_mem _ hy))
      rw [ht]

/-- The worked example of the spec: `[Enter@(3,10), Normal@(4,5), Leave@(5,1)]`,
with arbitrary record offsets. -/
def exampleIndex (o1 o2 o3 : Int) : List DebuggerPausePosition :=
  [ { type := DebuggerPausePositionType.Enter,
      position := { line := 3, column := 10, offset := o1 } },
    { type := DebuggerPausePositionType.Normal,
      position := { line := 4, column := 5, offset := o2 } },
    { type := DebuggerPausePositionType.Leave,
      position := { line := 5, column := 1, offset := o3 } } ]

/-- C1: on the index `[Enter@(3,10), Normal@(4,5), Leave@(5,1)]`, the query
`(2,0)` is not on the `Enter`'s line, so resolution skips the whole nested
scope: with only these three records it returns no result, and with one more
breakable record appended after the `Leave` it returns that record's
position. -/
theorem c1_query_before_scope_skips_it (o1 o2 o3 o4 pL pC : Int) :
    breakpointLocationForLineColumn (exampleIndex o1 o2 o3) 2 0 = none ∧
    breakpointLocationForLineColumn
      (exampleIndex o1 o2 o3 ++
        [{ type := DebuggerPausePositionType.Normal,
           position := { line := pL, column := pC, offset := o4 } }]) 2 0 =
      some { line := pL, column := pC, offset := o4 } := by
  constructor <;>
    simp [breakpointLocationForLineColumn, firstPositionAfter, lowerBoundAux, exampleIndex,
      breakpointLocationFromIterator, rollForward, slideLoop, posLess, defaultPause]

/-- C2: on the index `[Enter@(3,10), Normal@(4,5), Leave@(5,1)]`, the query
`(3,10)` hits the `Enter` exactly, steps into the scope, and returns the
position `(4,5)`. -/
theorem c2_query_on_enter_line_steps_in (o1 o2 o3 : Int) :
    breakpointLocationForLineColumn (exampleIndex o1 o2 o3) 3 10 =
      some { line := 4, column := 5, offset := o2 } := by
  simp [breakpointLocationForLineColumn, firstPositionAfter, lowerBoundAux, exampleIndex,
    breakpointLocationFromIterator, rollForward, slideLoop, posLess, defaultPause]

/-- C5: on an index sorted consistently with line/column order,
`firstPositionAfter(L,C)` returns the first record whose position is not less
than `(L,C)` under line-then-column ordering (every earlier record is strictly
less, no later record is), returns the end marker `ps.length` when no such
record exists, and is deterministic. -/
theorem c5_firstPositionAfter_contract (ps : List DebuggerPausePosition) (L C : Int)
    (hs : PosSorted ps) :
    firstPositionAfter ps L C ≤ ps.length ∧
    (∀ j, j < firstPositionAfter ps L C →
        posLess (ps.getD j defaultPause).position { line := L, column := C, offset := 0 } = true) ∧
    (∀ j, firstPositionAfter ps L C ≤ j → j < ps.length →
        posLess (ps.getD j defaultPause).position { line := L, column := C, offset := 0 } = false) ∧
    ((∀ j, j < ps.length →
        posLess (ps.getD j defaultPause).position { line := L, column := C, offset := 0 } = true) →
      firstPositionAfter ps L C = ps.length) ∧
    firstPositionAfter ps L C = firstPositionAfter ps L C := by
  obtain ⟨h1, h2, h3⟩ := firstPositionAfter_spec ps hs L C
  refine ⟨h1, h2, h3, ?_, rfl⟩
  intro hall
  by_contra hne
  have hlt : firstPositionAfter ps L C < ps.length := Nat.lt_of_le_of_ne h1 hne
  have hfalse := h3 _ (Nat.le_refl _) hlt
  rw [hall _ hlt] at hfalse
  cases hfalse

/-- Witness for C5 at a concrete sorted index and query. -/
theorem c5_firstPositionAfter_contract_witness :
    PosSorted (exampleIndex 0 1 2) ∧
    firstPositionAfter (exampleIndex 0 1 2) 4 0 ≤ (exampleIndex 0 1 2).length :=
  ⟨by decide, (c5_firstPositionAfter_contract (exampleIndex 0 1 2) 4 0 (by decide)).1⟩

/-- C9: a range query whose start equals its end visits nothing. -/
theorem c9_empty_range_visits_nothing (ps : List DebuggerPausePosition) (L C : Int)
    (hs : PosSorted ps) :
    forEachBreakpointLocation ps L C L C = [] := by
  unfold forEachBreakpointLocation
  rcases Nat.lt_or_ge (firstPositionAfter ps L C) ps.length with hi | hi
  · rw [List.drop_eq_getElem_cons hi]
    have hle := (firstPositionAfter_spec ps hs L C).2.2 _ (Nat.le_refl _) hi
    rw [List.getD_eq_getElem ps defaultPause hi] at hle
    have hstop := isAfterEnd_of_not_less L C _ hle
    rw [forEachLoop, if_pos hstop]
    simp
  · rw [List.drop_eq_nil_of_le hi]
    simp [forEachLoop]

/-- Witness for C9 at a concrete sorted index. -/
theorem c9_empty_range_visits_nothing_witness :
    PosSorted (exampleIndex 0 1 2) ∧
    forEachBreakpointLocation (exampleIndex 0 1 2) 4 5 4 5 = [] :=
  ⟨by decide, c9_empty_range_visits_nothing (exampleIndex 0 1 2) 4 5 (by decide)⟩

/-- C10: whenever `breakpointLocationForLineColumn` returns a position on a
sorted, well-formed index, it is the position of some record of the index
whose type is not `Enter`. -/
theorem c10_result_is_nonEnter_record_position (ps : List DebuggerPausePosition)
    (L C : Int) (p : JSTextPosition) (hs : PosSorted ps) (hw : WellFormed ps)
    (h : breakpointLocationForLineColumn ps L C = some p) :
    ∃ d ∈ ps, d.position = p ∧ d.type ≠ DebuggerPausePositionType.Enter := by
  obtain ⟨d, hd, hdp, hdne⟩ := breakpointLocationFromIterator_some L C _ p h
  exact ⟨d, List.drop_subset _ _ hd, hdp, hdne⟩

/-- Witness for C10 at a concrete sorted, well-formed index and query. -/
theorem c10_result_is_nonEnter_record_position_witness :
    PosSorted (exampleIndex 0 1 2) ∧ WellFormed (exampleIndex 0 1 2) ∧
    ∃ d ∈ exampleIndex 0 1 2,
      d.position = { line := 4, column := 5, offset := 1 } ∧
      d.type ≠ DebuggerPausePositionType.Enter :=
  ⟨by decide, by decide,
    c10_result_is_nonEnter_record_position (exampleIndex 0 1 2) 4 0
      { line := 4, column := 5, offset := 1 } (by decide) (by decide) (by decide)⟩

/-- C8: on a sorted, well-formed index (every `Enter` has a matching `Leave`
later), a query that exactly matches an `Enter` record's position makes the
roll-forward loop stop at an in-bounds non-`Enter` record: the loop never
runs off the end of the sequence, so the out-of-bounds dereference of the
C++ is unreachable. -/
theorem c8_rollforward_stays_in_bounds (ps : List DebuggerPausePosition) (L C : Int)
    (hs : PosSorted ps) (hw : WellFormed ps)
    (he : ∃ d ∈ ps, d.type = DebuggerPausePositionType.Enter ∧
          d.position.line = L ∧ d.position.column = C) :
    (rollForward (ps.drop (firstPositionAfter ps L C))).isSome = true := by
  obtain ⟨d, hd, htype, hline, hcol⟩ := he
  obtain ⟨k, hk, hdk⟩ := List.getElem_of_mem hd
  obtain ⟨hlen, hbefore, hafter⟩ := firstPositionAfter_spec ps hs L C
  have hkD : ps.getD k defaultPause = d := by
    rw [List.getD_eq_getElem ps defaultPause hk, hdk]
  have hnl : posLess (ps.getD k defaultPause).position
      { line := L, column := C, offset := 0 } = false := by
    rw [hkD, posLess_eq_false_iff]
    dsimp only
    omega
  have hki : firstPositionAfter ps L C ≤ k := by
    by_contra hcon
    have hup := hbefore k (by omega)
    rw [hnl] at hup
    cases hup
  obtain ⟨j, hjmem, hkj, hjleave⟩ := hw k (List.mem_range.mpr hk) (by rw [hkD]; exact htype)
  have hj : j < ps.length := List.mem_range.mp hjmem
  have hmlt : j - firstPositionAfter ps L C <
      (ps.drop (firstPositionAfter ps L C)).length := by
    rw [List.length_drop]
    omega
  have hgd : (ps.drop (firstPositionAfter ps L C)).getD
      (j - firstPositionAfter ps L C) defaultPause = ps.getD j defaultPause := by
    rw [getD_drop _ _ _ hmlt]
    congr 1
    omega
  obtain ⟨j', hj'm, hj'len, hroll, hj'ne⟩ :=
    rollForward_spec (ps.drop (firstPositionAfter ps L C))
      (j - firstPositionAfter ps L C) hmlt (by rw [hgd, hjleave]; simp)
  rw [hroll]
  rfl

/-- Witness for C8 at a concrete sorted, well-formed index: the query `(3,10)`
hits the `Enter` record exactly. -/
theorem c8_rollforward_stays_in_bounds_witness :
    PosSorted (exampleIndex 0 1 2) ∧ WellFormed (exampleIndex 0 1 2) ∧
    (rollForward ((exampleIndex 0 1 2).drop
      (firstPositionAfter (exampleIndex 0 1 2) 3 10))).isSome = true :=
  ⟨by decide, by decide,
    c8_rollforward_stays_in_bounds (exampleIndex 0 1 2) 3 10 (by decide) (by decide)
      (by decide)⟩

/-- C3: on a sorted index containing a `Normal` record exactly at `(L,C)`,
`breakpointLocationForLineColumn(L,C)` returns a position whose line and
column are exactly `(L,C)`. -/
theorem c3_exact_normal_match_returns_query (ps : List DebuggerPausePosition) (L C : Int)
    (hs : PosSorted ps)
    (he : ∃ d ∈ ps, d.type = DebuggerPausePositionType.Normal ∧
          d.position.line = L ∧ d.position.column = C) :
    ∃ p, breakpointLocationForLineColumn ps L C = some p ∧ p.line = L ∧ p.column = C := by
  obtain ⟨d, hd, htype, hline, hcol⟩ := he
  obtain ⟨k, hk, hdk⟩ := List.getElem_of_mem hd
  obtain ⟨hlen, hbefore, hafter⟩ := firstPositionAfter_spec ps hs L C
  have hkD : ps.getD k defaultPause = d := by
    rw [List.getD_eq_getElem ps defaultPause hk, hdk]
  have hnl : posLess (ps.getD k defaultPause).position
      { line := L, column := C, offset := 0 } = false := by
    rw [hkD, posLess_eq_false_iff]
    dsimp only
    omega
  have hki : firstPositionAfter ps L C ≤ k := by
    by_contra hcon
    have hup := hbefore k (by omega)
    rw [hnl] at hup
    cases hup
  have hilen : firstPositionAfter ps L C < ps.length := by omega
  have hhead := pos_eq_of_between ps hs L C (firstPositionAfter ps L C) k hki hk
    (by rw [hkD]; exact hline) (by rw [hkD]; exact hcol)
    (hafter _ (Nat.le_refl _) hilen)
  rw [List.getD_eq_getElem ps defaultPause hilen] at hhead
  unfold breakpointLocationForLineColumn
  rw [List.drop_eq_getElem_cons hilen, breakpointLocationFromIterator,
    if_pos ⟨hhead.1.symm, hhead.2.symm⟩, ← List.drop_eq_getElem_cons hilen]
  have hmlt : k - firstPositionAfter ps L C <
      (ps.drop (firstPositionAfter ps L C)).length := by
    rw [List.length_drop]
    omega
  have hgdk : (ps.drop (firstPositionAfter ps L C)).getD
      (k - firstPositionAfter ps L C) defaultPause = ps.getD k defaultPause := by
    rw [getD_drop _ _ _ hmlt]
    congr 1
    omega
  obtain ⟨j, hjm, hjlen, hroll, hjne⟩ :=
    rollForward_spec (ps.drop (firstPositionAfter ps L C))
      (k - firstPositionAfter ps L C) hmlt (by rw [hgdk, hkD, htype]; simp)
  rw [hroll]
  have hjlen' : firstPositionAfter ps L C + j < ps.length := by
    rw [List.length_drop] at hjlen
    omega
  have hgdj : (ps.drop (firstPositionAfter ps L C)).getD j defaultPause =
      ps.getD (firstPositionAfter ps L C + j) defaultPause := getD_drop _ _ _ hjlen
  have hres := pos_eq_of_between ps hs L C (firstPositionAfter ps L C + j) k
    (by omega) hk (by rw [hkD]; exact hline) (by rw [hkD]; exact hcol)
    (hafter _ (by omega) hjlen')
  refine ⟨((ps.drop (firstPositionAfter ps L C)).getD j defaultPause).position, rfl, ?_, ?_⟩
  · rw [hgdj]
    exact hres.1
  · rw [hgdj]
    exact hres.2

/-- Witness for C3 at a concrete sorted index: the `Normal` record sits at
`(4,5)`. -/
theorem c3_exact_normal_match_returns_query_witness :
    PosSorted (exampleIndex 0 1 2) ∧
    ∃ p, breakpointLocationForLineColumn (exampleIndex 0 1 2) 4 5 = some p ∧
      p.line = 4 ∧ p.column = 5 :=
  ⟨by decide,
    c3_exact_normal_match_returns_query (exampleIndex 0 1 2) 4 5 (by decide) (by decide)⟩

/-- C6 counterexample: `std::sort` only promises its postcondition, so on the
already-sorted sequence `equalKeyIndex` — two distinct records with equal
offset and equal type — the swapped sequence is an equally conforming result
of `sort()` that differs from the input: the unrestricted no-op/idempotence
claim fails on the code's contract. -/
theorem c6_counterexample_unstable_tie :
    List.Pairwise (fun a b => pauseLE a b = true) equalKeyIndex ∧
    SortResult equalKeyIndex equalKeyIndexSwapped ∧
    equalKeyIndexSwapped ≠ equalKeyIndex :=
  ⟨by decide, ⟨by decide, by decide⟩, by decide⟩

/-- C6 (amended): every conforming result of `sort()` is a permutation of the
appended records ascending by offset with ties broken by the type's ordinal
value ascending (and the executable model is such a result); and when no two
distinct records share their sort key (equal offset and equal type), sorting
an already-sorted sequence leaves it unchanged and `sort()` is idempotent —
uniformly over all conforming, possibly unstable, implementations. -/
theorem c6_sort_contract (ps qs : List DebuggerPausePosition) (hq : SortResult ps qs) :
    SortResult ps (DebuggerPausePositions.sort ps) ∧
    qs.Perm ps ∧
    List.Pairwise (fun a b => a.position.offset < b.position.offset ∨
        (a.position.offset = b.position.offset ∧ a.type.ordinal ≤ b.type.ordinal)) qs ∧
    ((∀ a ∈ ps, ∀ b ∈ ps, a.position.offset = b.position.offset → a.type = b.type → a = b) →
      List.Pairwise (fun a b => a.position.offset < b.position.offset ∨
        (a.position.offset = b.position.offset ∧ a.type.ordinal ≤ b.type.ordinal)) ps →
      qs = ps) ∧
    ((∀ a ∈ ps, ∀ b ∈ ps, a.position.offset = b.position.offset → a.type = b.type → a = b) →
      ∀ rs, SortResult qs rs → rs = qs) := by
  obtain ⟨hperm, hsorted⟩ := hq
  refine ⟨⟨List.mergeSort_perm ps pauseLE, List.sorted_mergeSort pauseLE_trans pauseLE_total ps⟩,
    hperm, hsorted.imp (fun h => (pauseLE_iff _ _).mp h), ?_, ?_⟩
  · intro hties hsps
    exact sorted_perm_eq qs ps hperm hsorted
      (hsps.imp (fun hab => (pauseLE_iff _ _).mpr hab))
      (fun a ha b hb => hties a (hperm.subset ha) b (hperm.subset hb))
  · intro hties rs hrs
    obtain ⟨hrperm, hrsorted⟩ := hrs
    exact sorted_perm_eq rs qs hrperm hrsorted hsorted
      (fun a ha b hb =>
        hties a (hperm.subset (hrperm.subset ha)) b (hperm.subset (hrperm.subset hb)))

/-- Witness for C6 (amended) at a concrete input and conforming sort result. -/
theorem c6_sort_contract_witness :
    SortResult (exampleIndex 2 0 1) exampleIndexSorted ∧
    exampleIndexSorted.Perm (exampleIndex 2 0 1) :=
  have h : SortResult (exampleIndex 2 0 1) exampleIndexSorted := ⟨by decide, by decide⟩
  ⟨h, (c6_sort_contract (exampleIndex 2 0 1) exampleIndexSorted h).2.1⟩

/-- Two records whose offset order disagrees with their line/column order:
offsets ascending, positions descending. -/
def offsetShuffledIndex : List DebuggerPausePosition :=
  [ { type := DebuggerPausePositionType.Normal,
      position := { line := 2, column := 0, offset := 0 } },
    { type := DebuggerPausePositionType.Normal,
      position := { line := 1, column := 0, offset := 1 } } ]

/-- C7 counterexample: `sort()` orders by offset only, so on a record
sequence whose offsets do not follow line/column order the sorted sequence
of positions is not non-decreasing by (line, column): the claim fails for
unrestricted inputs. -/
theorem c7_counterexample_offsets_disagree :
    DebuggerPausePositions.sort offsetShuffledIndex = offsetShuffledIndex ∧
    ¬ List.Pairwise (fun a b => posLess b a = false)
        ((DebuggerPausePositions.sort offsetShuffledIndex).map (fun d => d.position)) := by
  have hsorted : List.Pairwise (fun a b => pauseLE a b = true) offsetShuffledIndex := by
    decide
  have h1 : DebuggerPausePositions.sort offsetShuffledIndex = offsetShuffledIndex :=
    List.mergeSort_of_sorted hsorted
  refine ⟨h1, ?_⟩
  rw [h1]
  decide

/-- C7 (amended): for every record sequence whose offset order agrees with
the line/column order (a record with offset at most another's is never
after it in line/column order), the sequence of positions after `sort()` is
non-decreasing by (line, column). -/
theorem c7_sorted_positions_monotone (ps : List DebuggerPausePosition)
    (hagree : ∀ a ∈ ps, ∀ b ∈ ps, a.position.offset ≤ b.position.offset →
        posLess b.position a.position = false) :
    List.Pairwise (fun a b => posLess b a = false)
      ((DebuggerPausePositions.sort ps).map (fun d => d.position)) := by
  rw [List.pairwise_map]
  have hsorted := List.sorted_mergeSort pauseLE_trans pauseLE_total ps
  refine List.Pairwise.imp_of_mem ?_ hsorted
  intro a b ha hb hab
  have hoff : a.position.offset ≤ b.position.offset := by
    have h := (pauseLE_iff a b).mp hab
    omega
  exact hagree a (List.mem_mergeSort.mp ha) b (List.mem_mergeSort.mp hb) hoff

/-- Witness for C7 (amended) at a concrete record sequence whose offsets
follow line/column order. -/
theorem c7_sorted_positions_monotone_witness :
    (∀ a ∈ exampleIndex 0 1 2, ∀ b ∈ exampleIndex 0 1 2,
        a.position.offset ≤ b.position.offset →
        posLess b.position a.position = false) ∧
    List.Pairwise (fun a b => posLess b a = false)
      ((DebuggerPausePositions.sort (exampleIndex 0 1 2)).map (fun d => d.position)) :=
  ⟨by decide, c7_sorted_positions_monotone (exampleIndex 0 1 2) (by decide)⟩

/-- Two records at the same (line, column) but different offsets: duplicate
suppression compares full positions (offset included), so both survive. -/
def duplicateLineColumnIndex : List DebuggerPausePosition :=
  [ { type := DebuggerPausePositionType.Normal,
      position := { line := 1, column := 1, offset := 0 } },
    { type := DebuggerPausePositionType.Normal,
      position := { line := 1, column := 1, offset := 5 } } ]

/-- C4 counterexample: on a sorted index holding two records at (1,1) with
different offsets, `forEachBreakpointLocation` visits the pair (1,1) twice,
so the visited sequence is neither duplicate-free in (line, column) nor
strictly increasing. -/
theorem c4_counterexample_duplicate_line_column :
    PosSorted duplicateLineColumnIndex ∧
    (forEachBreakpointLocation duplicateLineColumnIndex 0 0 9 9).map
        (fun p => (p.line, p.column)) = [(1, 1), (1, 1)] ∧
    ¬ List.Pairwise (fun a b => posLess a b = true)
        (forEachBreakpointLocation duplicateLineColumnIndex 0 0 9 9) := by
  have hU : forEachLoop 9 9 (duplicateLineColumnIndex.drop
      (firstPositionAfter duplicateLineColumnIndex 0 0)) [] =
      [{ line := 1, column := 1, offset := 0 }, { line := 1, column := 1, offset := 5 }] := by
    decide
  have hforEach : forEachBreakpointLocation duplicateLineColumnIndex 0 0 9 9 =
      [{ line := 1, column := 1, offset := 0 }, { line := 1, column := 1, offset := 5 }] := by
    unfold forEachBreakpointLocation
    rw [hU]
    exact List.mergeSort_of_sorted (by decide)
  refine ⟨by decide, ?_, ?_⟩
  · rw [hforEach]
    decide
  · rw [hforEach]
    decide

/-- C4 (amended): on a sorted index in which any two records agreeing on
(line, column) have fully equal positions (equal offsets), the visitor of
`forEachBreakpointLocation` is never invoked twice with the same
(line, column) pair and the visited positions are strictly increasing in
(line, column) order. -/
theorem c4_forEach_visits_unique_increasing (ps : List DebuggerPausePosition)
    (startLine startColumn endLine endColumn : Int) (hs : PosSorted ps)
    (hinj : ∀ a ∈ ps, ∀ b ∈ ps, a.position.line = b.position.line →
        a.position.column = b.position.column → a.position = b.position) :
    List.Pairwise (fun a b => posLess a b = true)
      (forEachBreakpointLocation ps startLine startColumn endLine endColumn) ∧
    ((forEachBreakpointLocation ps startLine startColumn endLine endColumn).map
        (fun p => (p.line, p.column))).Nodup := by
  have hstrict : List.Pairwise (fun a b => posLess a b = true)
      (forEachBreakpointLocation ps startLine startColumn endLine endColumn) := by
    unfold forEachBreakpointLocation
    generalize hU : forEachLoop endLine endColumn
      (ps.drop (firstPositionAfter ps startLine startColumn)) [] = U
    have hUnodup : U.Nodup := by
      rw [← hU]
      exact forEachLoop_nodup _ _ _ _ List.nodup_nil
    have hUmem : ∀ x ∈ U, ∃ d ∈ ps, d.position = x := by
      intro x hx
      rw [← hU] at hx
      rcases forEachLoop_mem _ _ _ _ x hx with hfalse | ⟨d, hd, hdx, _⟩
      · simp at hfalse
      · exact ⟨d, List.drop_subset _ _ hd, hdx⟩
    have hsorted := List.sorted_mergeSort posLE_trans posLE_total U
    have hperm := List.mergeSort_perm U posLE
    have hVnodup : List.Pairwise (fun a b : JSTextPosition => a ≠ b) (U.mergeSort posLE) :=
      hperm.symm.nodup hUnodup
    rw [List.pairwise_iff_getElem]
    intro i j hi hj hij
    have hle := (List.pairwise_iff_getElem.mp hsorted) i j hi hj hij
    have hne := (List.pairwise_iff_getElem.mp hVnodup) i j hi hj hij
    obtain ⟨di, hdi, hdip⟩ := hUmem _ (List.mem_mergeSort.mp (List.getElem_mem hi))
    obtain ⟨dj, hdj, hdjp⟩ := hUmem _ (List.mem_mergeSort.mp (List.getElem_mem hj))
    cases hlt : posLess (U.mergeSort posLE)[i] (U.mergeSort posLE)[j] with
    | true => rfl
    | false =>
      exfalso
      have hle' : posLess (U.mergeSort posLE)[j] (U.mergeSort posLE)[i] = false := by
        simpa only [posLE, Bool.not_eq_true'] using hle
      rw [posLess_eq_false_iff] at hle'
      rw [posLess_eq_false_iff] at hlt
      have h1 : (U.mergeSort posLE)[i].line = (U.mergeSort posLE)[j].line ∧
          (U.mergeSort posLE)[i].column = (U.mergeSort posLE)[j].column := by omega
      have heqpos : di.position = dj.position := hinj di hdi dj hdj
        (by rw [hdip, hdjp]; exact h1.1) (by rw [hdip, hdjp]; exact h1.2)
      exact hne (by rw [← hdip, ← hdjp]; exact heqpos)
  refine ⟨hstrict, ?_⟩
  have hmapped : List.Pairwise (fun a b : Int × Int => a ≠ b)
      ((forEachBreakpointLocation ps startLine startColumn endLine endColumn).map
        (fun p => (p.line, p.column))) := by
    rw [List.pairwise_map]
    refine hstrict.imp ?_
    intro a b hab heq
    rw [posLess_iff] at hab
    have h1 : a.line = b.line := congrArg Prod.fst heq
    have h2 : a.column = b.column := congrArg Prod.snd heq
    omega
  exact hmapped

/-- Witness for C4 (amended) at a concrete sorted index with distinct
(line, column) pairs. -/
theorem c4_forEach_visits_unique_increasing_witness :
    List.Pairwise (fun a b => posLess a b = true)
      (forEachBreakpointLocation (exampleIndex 0 1 2) 0 0 9 9) ∧
    ((forEachBreakpointLocation (exampleIndex 0 1 2) 0 0 9 9).map
        (fun p => (p.line, p.column))).Nodup :=
  c4_forEach_visits_unique_increasing (exampleIndex 0 1 2) 0 0 9 9 (by decide) (by decide)
